import Mathlib

/-!
Verification of the chunked-blob codec and tree-sync engine of the `ops`
command-line utility (Rust sources `src/main.rs`, `src/ssm.rs`,
`src/compose.rs`).

Strings of the Rust program (`&str`, `String`) are modeled as their UTF-8
byte sequences, `List Nat`; parameter values are likewise byte sequences.
All definitions are executable and kernel-reducible (structural or
fuel-based recursion) so that concrete instances evaluate by `decide`.
-/

/-- Byte strings: Rust `&str` / `String` / `Vec<u8>` as lists of bytes. -/
abbrev Str : Type := List Nat

deriving instance DecidableEq for Except

/-- UTF-8 bytes of an ASCII string literal (used only on ASCII text,
where the code points coincide with the bytes). -/
def strBytes (s : String) : Str := s.data.map Char.toNat

/-- The UTF-8 encoding of U+FFFD REPLACEMENT CHARACTER, which Rust's
`String::from_utf8_lossy` substitutes for each maximal ill-formed subpart. -/
def fffd : Str := [239, 191, 189]

/-- A UTF-8 continuation byte, `0x80..=0xBF`. -/
def isCont (b : Nat) : Bool := 128 ≤ b && b ≤ 191

/-- Valid second byte of a three-byte sequence led by `b`
(`E0: A0..BF`, `ED: 80..9F`, otherwise a continuation byte). -/
def isSecond3 (b c : Nat) : Bool :=
  if b = 224 then 160 ≤ c && c ≤ 191
  else if b = 237 then 128 ≤ c && c ≤ 159
  else isCont c

/-- Valid second byte of a four-byte sequence led by `b`
(`F0: 90..BF`, `F4: 80..8F`, otherwise a continuation byte). -/
def isSecond4 (b c : Nat) : Bool :=
  if b = 240 then 144 ≤ c && c ≤ 191
  else if b = 244 then 128 ≤ c && c ≤ 143
  else isCont c

/-- Fuel-driven body of `utf8Lossy`; the fuel bounds the number of decoded
characters (each step consumes at least one input byte), keeping the
recursion structural and kernel-reducible. -/
def utf8LossyGo : Nat → Str → Str
  | _, [] => []
  | 0, _ :: _ => []
  | f + 1, b :: rest =>
    if b ≤ 127 then b :: utf8LossyGo f rest
    else if 194 ≤ b && b ≤ 223 then
      match rest with
      | [] => fffd
      | c1 :: rest1 =>
        if isCont c1 then b :: c1 :: utf8LossyGo f rest1
        else fffd ++ utf8LossyGo f (c1 :: rest1)
    else if 224 ≤ b && b ≤ 239 then
      match rest with
      | [] => fffd
      | c1 :: rest1 =>
        if isSecond3 b c1 then
          match rest1 with
          | [] => fffd
          | c2 :: rest2 =>
            if isCont c2 then b :: c1 :: c2 :: utf8LossyGo f rest2
            else fffd ++ utf8LossyGo f (c2 :: rest2)
        else fffd ++ utf8LossyGo f (c1 :: rest1)
    else if 240 ≤ b && b ≤ 244 then
      match rest with
      | [] => fffd
      | c1 :: rest1 =>
        if isSecond4 b c1 then
          match rest1 with
          | [] => fffd
          | c2 :: rest2 =>
            if isCont c2 then
              match rest2 with
              | [] => fffd
              | c3 :: rest3 =>
                if isCont c3 then b :: c1 :: c2 :: c3 :: utf8LossyGo f rest3
                else fffd ++ utf8LossyGo f (c3 :: rest3)
            else fffd ++ utf8LossyGo f (c2 :: rest2)
        else fffd ++ utf8LossyGo f (c1 :: rest1)
    else fffd ++ utf8LossyGo f rest

/-- Rust `String::from_utf8_lossy`, at the byte level: well-formed UTF-8
sequences are copied verbatim; each maximal ill-formed subpart is replaced
by one U+FFFD (bytes `EF BF BD`).  Models `src/main.rs` lines 86 and 96. -/
def utf8Lossy (l : Str) : Str := utf8LossyGo l.length l

/-- Fuel-driven body of `chunksOf` (fuel bounds the number of chunks so the
definition is structural and kernel-reducible). -/
def chunksGo (s : Nat) : Nat → Str → List Str
  | _, [] => []
  | 0, _ :: _ => []
  | f + 1, l => l.take s :: chunksGo s f (l.drop s)

/-- Rust `content.chunks(s)`: consecutive slices of at most `s` bytes, the
final slice possibly shorter (`src/main.rs` line 81).  Meaningful for
`1 ≤ s`; Rust panics on `s = 0`. -/
def chunksOf (s : Nat) (l : Str) : List Str := chunksGo s l.length l

/-- Fuel-driven decimal rendering of a natural number (digits as bytes). -/
def natDigitsGo : Nat → Nat → Str
  | 0, n => [48 + n % 10]
  | f + 1, n => if n < 10 then [48 + n] else natDigitsGo f (n / 10) ++ [48 + n % 10]

/-- Decimal rendering of a `usize`, as produced by Rust `format!("{i}")`. -/
def natDigits (n : Nat) : Str := natDigitsGo n n

/-- Rust `str::parse::<usize>()`: an optional leading `+` followed by one or
more ASCII decimal digits; anything else fails (`src/main.rs` line 136). -/
def parseUsize (s : Str) : Option Nat :=
  match s with
  | [] => none
  | b :: r =>
    let ds := if b = 43 then r else b :: r
    if ds ≠ [] ∧ ∀ x ∈ ds, 48 ≤ x ∧ x ≤ 57 then
      some (ds.foldl (fun a x => a * 10 + (x - 48)) 0)
    else none

/-- The reserved chunk marker `".part"` as bytes. -/
def dotPart : Str := strBytes (".part")

/-- Rust `str::rsplit_once(needle)`: splits at the last occurrence of
`needle`, returning the text before and after it; `none` when `needle` does
not occur.  Used with `".part"` in `src/main.rs` line 135 and with `"/"` in
`src/compose.rs` lines 70 and 89. -/
def rsplitGo (needle : Str) : Str → Option (Str × Str)
  | [] => none
  | b :: rest =>
    match rsplitGo needle rest with
    | some pr => some (b :: pr.1, pr.2)
    | none =>
      if needle.isPrefixOf (b :: rest) then some ([], (b :: rest).drop needle.length)
      else none

/-- Key classification of `download_to_dir` (`src/main.rs` lines 135-140):
a key whose text after the last `".part"` parses as a `usize` contributes
`(base, (index, value))`; a key with no `".part"` at all contributes
`(key, (0, value))`; a key with `".part"` whose suffix fails to parse is
malformed (`none` — the code propagates the parse error with `?`). -/
def deriveKV (e : Str × Str) : Option (Str × (Nat × Str)) :=
  match rsplitGo dotPart e.1 with
  | some pr => (parseUsize pr.2).map (fun idx => (pr.1, (idx, e.2)))
  | none => some (e.1, (0, e.2))

/-- `HashMap::entry(k).or_default().push(iv)`: append `iv` to the group of
key `k`, creating the group if absent.  Groups are kept in first-insertion
order; per-group chunk lists keep insertion order. -/
def insertEntry : List (Str × List (Nat × Str)) → Str → (Nat × Str) → List (Str × List (Nat × Str))
  | [], k, iv => [(k, [iv])]
  | g :: rest, k, iv =>
    if g.1 = k then (g.1, g.2 ++ [iv]) :: rest
    else g :: insertEntry rest k iv

/-- The grouping loop of `download_to_dir` (`src/main.rs` lines 129-141):
derive `(base, index)` for each fetched entry in order, accumulating groups;
a malformed chunk suffix aborts with an error (the `?` on `part.parse()`). -/
def groupGo : List (Str × List (Nat × Str)) → List (Str × Str) → Except Unit (List (Str × List (Nat × Str)))
  | m, [] => .ok m
  | m, e :: rest =>
    match deriveKV e with
    | some biv => groupGo (insertEntry m biv.1 biv.2) rest
    | none => .error ()

/-- Group the fetched `(key, value)` entries by derived base key. -/
def groupParams (l : List (Str × Str)) : Except Unit (List (Str × List (Nat × Str))) :=
  groupGo [] l

/-- Comparison used by `chunks.sort_by_key(|(i, _)| *i)`: order chunk
entries by index. -/
def keyLE (a b : Nat × Str) : Prop := a.1 ≤ b.1

instance : DecidableRel keyLE := fun a b => Nat.decLe a.1 b.1

instance : IsTotal (Nat × Str) keyLE := ⟨fun a b => Nat.le_total a.1 b.1⟩

instance : IsTrans (Nat × Str) keyLE := ⟨fun _ _ _ h1 h2 => Nat.le_trans h1 h2⟩

/-- Strict comparison on chunk indices (used to show a sorted chunk group
with pairwise-distinct indices is uniquely determined). -/
def keyLT (a b : Nat × Str) : Prop := a.1 < b.1

instance : IsAntisymm (Nat × Str) keyLT :=
  ⟨fun _ _ h1 h2 => absurd (Nat.lt_trans h1 h2) (Nat.lt_irrefl _)⟩

/-- `src/main.rs` lines 152-153: stable-sort a chunk group by index and
concatenate the values (Rust `sort_by_key` is a stable sort, modeled by
insertion sort, which is stable). -/
def assemble (chunks : List (Nat × Str)) : Str :=
  ((List.insertionSort keyLE chunks).map Prod.snd).flatten

/-- Decode (`src/main.rs` lines 129-153 without the filesystem writes):
group fetched entries by base key, then reassemble each group's content.
The result maps each base key to its reconstructed content. -/
def decodeModel (l : List (Str × Str)) : Except Unit (List (Str × Str)) :=
  (groupParams l).map (fun m => m.map (fun g => (g.1, assemble g.2)))

/-- Association-list lookup on the decoded result. -/
def lookupVal : List (Str × Str) → Str → Option Str
  | [], _ => none
  | g :: rest, k => if g.1 = k then some g.2 else lookupVal rest k

/-- The reconstructed content that Decode assigns to base key `k`. -/
def decodeLookup (l : List (Str × Str)) (k : Str) : Except Unit (Option Str) :=
  (decodeModel l).map (fun m => lookupVal m k)

/-- The `(index, value)` chunk pairs that the input entries contribute to
base key `k`, in input order. -/
def chunksFor (l : List (Str × Str)) (k : Str) : List (Nat × Str) :=
  l.filterMap (fun e => (deriveKV e).bind (fun biv => if biv.1 = k then some biv.2 else none))

/-- Lookup in the intermediate group map. -/
def lookupGroup : List (Str × List (Nat × Str)) → Str → Option (List (Nat × Str))
  | [], _ => none
  | g :: rest, k => if g.1 = k then some g.2 else lookupGroup rest k

/-- `aws_sdk_ssm::types::ParameterType`: the storage classification of a
parameter (`SecureString` is the secret classification). -/
inductive ParameterType : Type
  | string
  | stringList
  | secureString
deriving DecidableEq

/-- A stored parameter as returned by the store. -/
structure Param where
  name : Str
  value : Str
  type : ParameterType
deriving DecidableEq

/-- One `put_parameter` request issued by the program. -/
structure Put where
  name : Str
  value : Str
  overwrite : Bool
  type : ParameterType
deriving DecidableEq

/-- `src/main.rs` line 14. -/
def CHUNK_SIZE : Nat := 4096

/-- Rust `Iterator::enumerate`, pairing each element with its index starting
at `i`. -/
def enumFrom (i : Nat) : List α → List (Nat × α)
  | [] => []
  | a :: l => (i, a) :: enumFrom (i + 1) l

/-- The `put_parameter` calls `upload_dir` issues for one file with base key
`base` and raw content `content`, generalized over the chunk size
(`src/main.rs` lines 80-101): content larger than the chunk size is split
into slices keyed `base.part{i}`; otherwise a single entry at `base`.  Every
value is the lossy UTF-8 decoding of the raw bytes; every put overwrites and
is typed `SecureString`. -/
def putsFor (base : Str) (content : Str) (s : Nat) : List Put :=
  if s < content.length then
    (enumFrom 0 (chunksOf s content)).map
      (fun ic => ⟨base ++ dotPart ++ natDigits ic.1, utf8Lossy ic.2, true, .secureString⟩)
  else [⟨base, utf8Lossy content, true, .secureString⟩]

/-- Encode: the `(key, value)` entries emitted for content `c` under base
key `b` with chunk size `s`, in emission order. -/
def encode (c b : Str) (s : Nat) : List (Str × Str) :=
  (putsFor b c s).map (fun p => (p.name, p.value))

/-- The puts `upload_dir` issues for one file, at the program's fixed chunk
size. -/
def uploadPuts (base content : Str) : List Put := putsFor base content CHUNK_SIZE

/-- Fuel-driven body of `trimStartMatches`. -/
def trimGo (pat : Str) : Nat → Str → Str
  | 0, l => l
  | f + 1, l =>
    if pat ≠ [] && pat.isPrefixOf l then trimGo pat f (l.drop pat.length)
    else l

/-- Rust `str::trim_start_matches(pat)`: repeatedly removes `pat` from the
front while it is a prefix (all leading occurrences, not just one).  Used in
`src/main.rs` lines 132 and 206. -/
def trimStartMatches (pat l : Str) : Str := trimGo pat l.length l

/-- The `put_parameter` calls `copy` issues (`src/main.rs` lines 199-219):
one per listed entry, in listing order; the new key is `to_prefix`
concatenated with the old key after `trim_start_matches(prefix)`; value and
parameter type are taken from the source entry, with overwrite enabled. -/
def copyPuts (params : List Param) (src dst : Str) : List Put :=
  params.map (fun q => ⟨dst ++ trimStartMatches src q.name, q.value, true, q.type⟩)

/-- Modelled from the spec (for comparison only): "the remainder of the old
key after stripping `from_prefix` once from its front" — a single leading
occurrence removed, as claim C3 states it. -/
def specStripOnce (pat l : Str) : Str :=
  if pat.isPrefixOf l then l.drop pat.length else l

/-- The store's answer to `get_parameter(name)`-style exact lookup: the
first stored entry with that name. -/
def storeGet (store : List Param) (n : Str) : Option Param :=
  store.find? (fun p => p.name == n)

/-- The store's answer to the batch `get_parameters(names)` request: the
entries for the names that exist; missing names produce no entry (they are
reported separately as invalid and ignored by the program). -/
def getParametersResp (store : List Param) (names : List Str) : List Param :=
  names.filterMap (storeGet store)

/-- Rust `u8::to_ascii_uppercase` over a byte string. -/
def upAscii (s : Str) : Str :=
  s.map (fun b => if 97 ≤ b && b ≤ 122 then b - 32 else b)

/-- `name.rsplit('/').next().unwrap_or(name)`: the text after the last `/`,
or the whole name when it has no `/` (`src/main.rs` line 188). -/
def lastComponent (n : Str) : Str :=
  match rsplitGo [47] n with
  | some pr => pr.2
  | none => n

/-- The environment key `set_env` derives for a parameter: the last
`/`-component of its name, ASCII-upper-cased. -/
def envKeyOf (n : Str) : Str := upAscii (lastComponent n)

/-- One `KEY="value"` line of the generated environment file
(`src/main.rs` line 190); `61` is `=` and `34` is `"`. -/
def envLine (p : Param) : Str := envKeyOf p.name ++ [61, 34] ++ p.value ++ [34]

/-- The full name `set_env` requests for variable `v`: `base ++ "/" ++ v`
(`src/main.rs` line 178). -/
def envName (base v : Str) : Str := base ++ [47] ++ v

/-- The lines `set_env` writes (`src/main.rs` lines 174-194): one line per
parameter returned by the batch fetch, in response order. -/
def setEnvLines (store : List Param) (base : Str) (vars : List Str) : List Str :=
  (getParametersResp store (vars.map (envName base))).map envLine

/-- The continuation token returned with page `i` of a paginated listing:
present exactly when another page follows. -/
def nextTok (pages : List (List Param)) (i : Nat) : Option Nat :=
  if i + 1 < pages.length then some (i + 1) else none

/-- The `try_unfold` pagination loop of `all_parameters_by_path`
(`src/ssm.rs` lines 12-28, duplicated in `src/main.rs` lines 106-122):
request a page, yield its entries, and continue with the returned
continuation token while one is present.  One element of the result per
request issued.  The fuel bounds the page chain and never runs out when it
starts at the page count. -/
def collectGo (pages : List (List Param)) : Nat → Nat → List (List Param)
  | 0, i => [pages.getD i []]
  | f + 1, i =>
    pages.getD i [] ::
      match nextTok pages i with
      | some j => collectGo pages f j
      | none => []

/-- All pages yielded by the pagination loop, starting from the first
request (no token). -/
def allPages (pages : List (List Param)) : List (List Param) :=
  collectGo pages pages.length 0

/-- `name` lies strictly under `path` in the key hierarchy (any depth). -/
def isUnder (path name : Str) : Bool := (path ++ [47]).isPrefixOf name

/-- `name` lies directly under `path`: one further component, no deeper. -/
def isDirectlyUnder (path name : Str) : Bool :=
  isUnder path name && !((name.drop (path.length + 1)).contains 47)

/-- The abstract store's answer to `get_parameters_by_path(path, recursive)`:
with `recursive = true` the entire hierarchy under `path`, with
`recursive = false` only the entries directly under it. -/
def listByPath (store : List Param) (path : Str) (recursive : Bool) : List Param :=
  store.filter (fun q => if recursive then isUnder path q.name else isDirectlyUnder path q.name)

/-- Grouping key of `exec_compose` (`src/compose.rs` line 70): everything
before the final `/` of a fully-qualified secret key (the whole key when it
has no `/`). -/
def parentPath (n : Str) : Str :=
  match rsplitGo [47] n with
  | some pr => pr.1
  | none => n

/-- The logical result set `exec_compose` fetches for one parent-path group
(`src/compose.rs` line 77): `ssm::all_parameters_by_path` requests the
listing with `recursive(true)` (`src/ssm.rs` line 20), so the fetch is the
recursive listing under the group's parent path. -/
def composeFetch (store : List Param) (p : Str) : List Param :=
  listByPath store p true

/-! ### Chunking lemmas -/

theorem chunksGo_nil (s f : Nat) : chunksGo s f [] = [] := by
  cases f <;> rfl

theorem chunksGo_cons (s f : Nat) (a : Nat) (t : Str) :
    chunksGo s (f + 1) (a :: t) = (a :: t).take s :: chunksGo s f ((a :: t).drop s) := by
  rw [chunksGo]
  simp

theorem chunksGo_flatten (s : Nat) (hs : 1 ≤ s) :
    ∀ (f : Nat) (l : Str), l.length ≤ f → (chunksGo s f l).flatten = l := by
  intro f
  induction f with
  | zero =>
    intro l hl
    cases l with
    | nil => rfl
    | cons a t => simp at hl
  | succ f ih =>
    intro l hl
    cases l with
    | nil => rfl
    | cons a t =>
      rw [chunksGo_cons, List.flatten_cons, ih ((a :: t).drop s) ?_, List.take_append_drop]
      rw [List.length_drop]
      simp only [List.length_cons] at hl ⊢
      omega

theorem chunksGo_mem_length (s : Nat) :
    ∀ (f : Nat) (l : Str), ∀ ch ∈ chunksGo s f l, ch.length ≤ s := by
  intro f
  induction f with
  | zero =>
    intro l ch hch
    cases l with
    | nil => simp [chunksGo_nil] at hch
    | cons a t => simp [chunksGo] at hch
  | succ f ih =>
    intro l ch hch
    cases l with
    | nil => simp [chunksGo_nil] at hch
    | cons a t =>
      rw [chunksGo_cons] at hch
      rcases List.mem_cons.mp hch with h | h
      · subst h
        simp [List.length_take]
      · exact ih _ ch h

theorem chunksGo_count (s : Nat) (hs : 1 ≤ s) :
    ∀ (f : Nat) (l : Str), l.length ≤ f → (chunksGo s f l).length = (l.length + s - 1) / s := by
  intro f
  induction f with
  | zero =>
    intro l hl
    cases l with
    | nil => simp [chunksGo_nil, Nat.div_eq_of_lt (by omega : s - 1 < s)]
    | cons a t => simp at hl
  | succ f ih =>
    intro l hl
    cases l with
    | nil => simp [chunksGo_nil, Nat.div_eq_of_lt (by omega : s - 1 < s)]
    | cons a t =>
      have hdrop : ((a :: t).drop s).length ≤ f := by
        rw [List.length_drop]
        simp only [List.length_cons] at hl ⊢
        omega
      rw [chunksGo_cons, List.length_cons, ih _ hdrop, List.length_drop]
      simp only [List.length_cons]
      rcases Nat.lt_or_ge t.length s with hc | hc
      · have e1 : t.length + 1 - s = 0 := by omega
        have e2 : (0 : Nat) + s - 1 = s - 1 := by omega
        have e3 : t.length + 1 + s - 1 = t.length + s := by omega
        rw [e1, e2, e3, Nat.div_eq_of_lt (by omega : s - 1 < s),
          Nat.add_div_right _ (by omega : 0 < s), Nat.div_eq_of_lt hc]
      · have e1 : t.length + 1 - s + s - 1 = t.length := by omega
        have e3 : t.length + 1 + s - 1 = t.length + s := by omega
        rw [e1, e3, Nat.add_div_right _ (by omega : 0 < s)]

theorem chunksOf_flatten (s : Nat) (hs : 1 ≤ s) (l : Str) : (chunksOf s l).flatten = l :=
  chunksGo_flatten s hs l.length l (Nat.le_refl _)

theorem chunksOf_mem_length (s : Nat) (l : Str) : ∀ ch ∈ chunksOf s l, ch.length ≤ s :=
  chunksGo_mem_length s l.length l

theorem chunksOf_count (s : Nat) (hs : 1 ≤ s) (l : Str) :
    (chunksOf s l).length = (l.length + s - 1) / s :=
  chunksGo_count s hs l.length l (Nat.le_refl _)

theorem chunksOf_small (s : Nat) (l : Str) (hne : l ≠ []) (hl : l.length ≤ s) :
    chunksOf s l = [l] := by
  cases l with
  | nil => exact absurd rfl hne
  | cons a t =>
    rw [chunksOf, show ((a :: t : Str)).length = t.length + 1 from rfl, chunksGo_cons,
      List.take_of_length_le hl, List.drop_eq_nil_of_le hl, chunksGo_nil]

theorem chunksOf_ne_nil (s : Nat) (l : Str) (hne : l ≠ []) : chunksOf s l ≠ [] := by
  cases l with
  | nil => exact absurd rfl hne
  | cons a t =>
    rw [chunksOf, show ((a :: t : Str)).length = t.length + 1 from rfl, chunksGo_cons]
    simp

/-! ### Decimal rendering and parsing -/

theorem natDigitsGo_spec :
    ∀ (f n : Nat), n ≤ f →
      (∀ b ∈ natDigitsGo f n, 48 ≤ b ∧ b ≤ 57) ∧
      natDigitsGo f n ≠ [] ∧
      ∀ acc : Nat, (natDigitsGo f n).foldl (fun a x => a * 10 + (x - 48)) acc =
        acc * 10 ^ (natDigitsGo f n).length + n := by
  intro f
  induction f with
  | zero =>
    intro n hn
    have hn0 : n = 0 := Nat.le_zero.mp hn
    subst hn0
    refine ⟨?_, by simp [natDigitsGo], ?_⟩
    · intro b hb
      simp [natDigitsGo] at hb
      omega
    · intro acc
      simp [natDigitsGo]
  | succ f ih =>
    intro n hn
    by_cases h10 : n < 10
    · rw [natDigitsGo, if_pos h10]
      refine ⟨?_, by simp, ?_⟩
      · intro b hb
        simp at hb
        omega
      · intro acc
        simp
    · rw [natDigitsGo, if_neg h10]
      have hrec : n / 10 ≤ f := by
        have := Nat.div_lt_self (by omega : 0 < n) (by omega : 1 < 10)
        omega
      obtain ⟨hd, hne, hf⟩ := ih (n / 10) hrec
      refine ⟨?_, by simp, ?_⟩
      · intro b hb
        rcases List.mem_append.mp hb with h | h
        · exact hd b h
        · simp at h
          omega
      · intro acc
        rw [List.foldl_append, hf acc, List.length_append]
        simp only [List.foldl_cons, List.foldl_nil, List.length_cons, List.length_nil]
        have hsub : 48 + n % 10 - 48 = n % 10 := by omega
        rw [hsub, pow_succ]
        have hmod := Nat.div_add_mod n 10
        have hring : (acc * 10 ^ (natDigitsGo f (n / 10)).length + n / 10) * 10 + n % 10 =
            acc * (10 ^ (natDigitsGo f (n / 10)).length * 10) + (10 * (n / 10) + n % 10) := by
          ring
        rw [hring, hmod]

theorem natDigits_digit (n : Nat) : ∀ b ∈ natDigits n, 48 ≤ b ∧ b ≤ 57 :=
  (natDigitsGo_spec n n (Nat.le_refl n)).1

theorem natDigits_ne_nil (n : Nat) : natDigits n ≠ [] :=
  (natDigitsGo_spec n n (Nat.le_refl n)).2.1

theorem parseUsize_natDigits (n : Nat) : parseUsize (natDigits n) = some n := by
  obtain ⟨hd, hne, hf⟩ := natDigitsGo_spec n n (Nat.le_refl n)
  cases hds : natDigits n with
  | nil => exact absurd hds hne
  | cons b r =>
    rw [show natDigitsGo n n = natDigits n from rfl, hds] at hd hf
    have hb := hd b (List.mem_cons_self _ _)
    rw [parseUsize]
    have h43 : ¬ b = 43 := by omega
    simp only [if_neg h43]
    rw [if_pos ⟨by simp, hd⟩]
    have := hf 0
    simp only [Nat.zero_mul, Nat.zero_add] at this
    rw [this]

/-! ### Last-occurrence split lemmas -/

theorem isPrefixOf_self_append (n b : Str) : n.isPrefixOf (n ++ b) = true := by
  induction n with
  | nil => simp [List.isPrefixOf]
  | cons x t ih => simp [List.isPrefixOf, ih]

theorem rsplitGo_eq_none (needle : Str) :
    ∀ s : Str, (∀ i : Nat, needle.isPrefixOf (s.drop i) = false) → rsplitGo needle s = none := by
  intro s
  induction s with
  | nil => intro _; rfl
  | cons b rest ih =>
    intro h
    have hin : rsplitGo needle rest = none := by
      apply ih
      intro i
      have := h (i + 1)
      rwa [List.drop_succ_cons] at this
    have h0 := h 0
    rw [List.drop_zero] at h0
    rw [rsplitGo, hin]
    simp [h0]

theorem rsplitGo_append (n0 : Nat) (ntail : Str) :
    ∀ (a b : Str),
      (∀ i : Nat, (n0 :: ntail).isPrefixOf (((n0 :: ntail) ++ b).drop (i + 1)) = false) →
      rsplitGo (n0 :: ntail) (a ++ (n0 :: ntail) ++ b) = some (a, b) := by
  intro a
  induction a with
  | nil =>
    intro b h
    have hin : rsplitGo (n0 :: ntail) (ntail ++ b) = none := by
      apply rsplitGo_eq_none
      intro i
      have := h i
      rwa [show ((n0 :: ntail) ++ b).drop (i + 1) = (ntail ++ b).drop i from rfl] at this
    rw [List.nil_append, show (n0 :: ntail) ++ b = n0 :: (ntail ++ b) from rfl, rsplitGo, hin]
    rw [show (n0 :: (ntail ++ b)) = (n0 :: ntail) ++ b from rfl, isPrefixOf_self_append]
    simp [List.drop_left]
  | cons x a' ih =>
    intro b h
    have hrec := ih b h
    show rsplitGo (n0 :: ntail) (x :: (a' ++ (n0 :: ntail) ++ b)) = some (x :: a', b)
    rw [rsplitGo, hrec]

theorem notMem_head_notPrefix (n0 : Nat) (ntail s1 : Str) (h : n0 ∉ s1) (j : Nat) :
    (n0 :: ntail).isPrefixOf (s1.drop j) = false := by
  cases hd : s1.drop j with
  | nil => rfl
  | cons c t =>
    have hc : c ∈ s1 := by
      have hmem : c ∈ s1.drop j := by
        rw [hd]
        exact List.mem_cons_self _ _
      exact (List.drop_sublist j s1).subset hmem
    have hne : n0 ≠ c := by
      intro he
      subst he
      exact h hc
    simp [List.isPrefixOf, hne]

theorem dotPart_no_later (b : Str) (hb : ∀ x ∈ b, 48 ≤ x ∧ x ≤ 57) (i : Nat) :
    dotPart.isPrefixOf ((dotPart ++ b).drop (i + 1)) = false := by
  have hdp : dotPart = 46 :: [112, 97, 114, 116] := by decide
  have h46 : (46 : Nat) ∉ ([112, 97, 114, 116] : Str) ++ b := by
    intro hmem
    rcases List.mem_append.mp hmem with h | h
    · simp at h
    · have := hb 46 h
      omega
  rw [hdp, show ((46 :: [112, 97, 114, 116] : Str) ++ b).drop (i + 1) =
    (([112, 97, 114, 116] : Str) ++ b).drop i from rfl]
  exact notMem_head_notPrefix 46 _ _ h46 i

theorem deriveKV_chunk (base v : Str) (i : Nat) :
    deriveKV (base ++ dotPart ++ natDigits i, v) = some (base, (i, v)) := by
  have hdp : dotPart = 46 :: [112, 97, 114, 116] := by decide
  have hsplit : rsplitGo dotPart (base ++ dotPart ++ natDigits i) = some (base, natDigits i) := by
    rw [hdp]
    apply rsplitGo_append
    intro j
    have := dotPart_no_later (natDigits i) (natDigits_digit i) j
    rwa [hdp] at this
  simp only [deriveKV, hsplit, parseUsize_natDigits, Option.map_some']

/-! ### Grouping lemmas -/

theorem lookupGroup_insertEntry (m : List (Str × List (Nat × Str))) (b : Str) (iv : Nat × Str)
    (k : Str) :
    lookupGroup (insertEntry m b iv) k =
      if b = k then some ((lookupGroup m k).getD [] ++ [iv]) else lookupGroup m k := by
  induction m with
  | nil =>
    by_cases hbk : b = k
    · subst hbk
      simp [insertEntry, lookupGroup]
    · simp [insertEntry, lookupGroup, hbk]
  | cons g rest ih =>
    by_cases hgb : g.1 = b
    · by_cases hbk : b = k
      · subst hbk
        simp [insertEntry, lookupGroup, hgb]
      · have hgk : ¬ g.1 = k := by
          rw [hgb]
          exact hbk
        simp [insertEntry, lookupGroup, hgb, hgk, hbk]
    · by_cases hgk : g.1 = k
      · have hbk : ¬ b = k := by
          intro he
          exact hgb (by rw [hgk, he])
        have hkb : ¬ k = b := fun he => hbk he.symm
        simp [insertEntry, lookupGroup, hgb, hgk, hbk, hkb]
      · simp [insertEntry, lookupGroup, hgb, hgk, ih]

theorem groupGo_lookup :
    ∀ (l : List (Str × Str)) (m m' : List (Str × List (Nat × Str))) (k : Str),
      groupGo m l = .ok m' →
      lookupGroup m' k =
        (match lookupGroup m k with
        | some vs => some (vs ++ chunksFor l k)
        | none => if chunksFor l k = [] then none else some (chunksFor l k)) := by
  intro l
  induction l with
  | nil =>
    intro m m' k h
    simp only [groupGo, Except.ok.injEq] at h
    subst h
    cases hlk : lookupGroup m k <;> simp [chunksFor, hlk]
  | cons e rest ih =>
    intro m m' k h
    rw [groupGo] at h
    cases hde : deriveKV e with
    | none =>
      rw [hde] at h
      exact absurd h (by simp)
    | some biv =>
      rw [hde] at h
      rw [ih (insertEntry m biv.1 biv.2) m' k h, lookupGroup_insertEntry]
      have hch : chunksFor (e :: rest) k =
          (if biv.1 = k then [biv.2] else []) ++ chunksFor rest k := by
        rw [chunksFor, List.filterMap_cons]
        by_cases hbk : biv.1 = k <;> simp [hde, hbk, chunksFor]
      rw [hch]
      by_cases hbk : biv.1 = k
      · rw [if_pos hbk, if_pos hbk]
        cases hlk : lookupGroup m k with
        | none => simp
        | some vs => simp
      · rw [if_neg hbk, if_neg hbk]
        cases hlk : lookupGroup m k with
        | none => simp
        | some vs => simp

theorem groupGo_error_of_mem :
    ∀ (l : List (Str × Str)) (m : List (Str × List (Nat × Str))) (e : Str × Str),
      e ∈ l → deriveKV e = none → groupGo m l = .error () := by
  intro l
  induction l with
  | nil =>
    intro m e he _
    exact absurd he (List.not_mem_nil e)
  | cons a rest ih =>
    intro m e he hde
    rcases List.mem_cons.mp he with h | h
    · subst h
      rw [groupGo, hde]
    · cases hda : deriveKV a with
      | none => rw [groupGo, hda]
      | some biv =>
        rw [groupGo, hda]
        exact ih _ e h hde

theorem groupGo_error_mem :
    ∀ (l : List (Str × Str)) (m : List (Str × List (Nat × Str))),
      groupGo m l = .error () → ∃ e ∈ l, deriveKV e = none := by
  intro l
  induction l with
  | nil =>
    intro m h
    simp [groupGo] at h
  | cons a rest ih =>
    intro m h
    rw [groupGo] at h
    cases hda : deriveKV a with
    | none => exact ⟨a, List.mem_cons_self _ _, hda⟩
    | some biv =>
      rw [hda] at h
      obtain ⟨e, he, hde⟩ := ih _ h
      exact ⟨e, List.mem_cons_of_mem _ he, hde⟩

theorem lookupVal_map_assemble (m : List (Str × List (Nat × Str))) (k : Str) :
    lookupVal (m.map (fun g => (g.1, assemble g.2))) k = (lookupGroup m k).map assemble := by
  induction m with
  | nil => rfl
  | cons g rest ih =>
    by_cases hgk : g.1 = k <;> simp [lookupVal, lookupGroup, hgk, ih]

theorem decodeLookup_of_ok (l : List (Str × Str)) (m : List (Str × List (Nat × Str)))
    (hm : groupParams l = .ok m) (k : Str) :
    decodeLookup l k =
      .ok (if chunksFor l k = [] then none else some (assemble (chunksFor l k))) := by
  have hlk := groupGo_lookup l [] m k hm
  rw [decodeLookup, decodeModel, hm]
  simp only [Except.map, Except.ok.injEq]
  rw [lookupVal_map_assemble, hlk]
  show ((if chunksFor l k = [] then none else some (chunksFor l k)).map assemble) = _
  by_cases hc : chunksFor l k = [] <;> simp [hc]

/-! ### Sorting lemmas -/

theorem sorted_keyLT (l : List (Nat × Str)) (hs : List.Sorted keyLE l)
    (hn : (l.map Prod.fst).Nodup) : List.Sorted keyLT l := by
  have hp : List.Pairwise (fun a b : Nat × Str => a.1 ≠ b.1) l := List.pairwise_map.mp hn
  exact (hs.and hp).imp (fun h => Nat.lt_of_le_of_ne h.1 h.2)

theorem insertionSort_eq_of_perm_nodup (cs₁ cs₂ : List (Nat × Str)) (hp : cs₁.Perm cs₂)
    (hn : (cs₁.map Prod.fst).Nodup) :
    List.insertionSort keyLE cs₁ = List.insertionSort keyLE cs₂ := by
  have h1 : (List.insertionSort keyLE cs₁).Perm cs₁ := List.perm_insertionSort keyLE cs₁
  have h2 : (List.insertionSort keyLE cs₂).Perm cs₂ := List.perm_insertionSort keyLE cs₂
  have hp12 : (List.insertionSort keyLE cs₁).Perm (List.insertionSort keyLE cs₂) :=
    (h1.trans hp).trans h2.symm
  have hn1 : ((List.insertionSort keyLE cs₁).map Prod.fst).Nodup :=
    ((h1.map Prod.fst).nodup_iff).mpr hn
  have hn2 : ((List.insertionSort keyLE cs₂).map Prod.fst).Nodup :=
    ((hp12.map Prod.fst).nodup_iff).mp hn1
  exact List.eq_of_perm_of_sorted (r := keyLT) hp12
    (sorted_keyLT _ (List.sorted_insertionSort keyLE cs₁) hn1)
    (sorted_keyLT _ (List.sorted_insertionSort keyLE cs₂) hn2)

theorem assemble_eq_of_perm_nodup (cs₁ cs₂ : List (Nat × Str)) (hp : cs₁.Perm cs₂)
    (hn : (cs₁.map Prod.fst).Nodup) : assemble cs₁ = assemble cs₂ := by
  rw [assemble, assemble, insertionSort_eq_of_perm_nodup cs₁ cs₂ hp hn]

/-! ### Enumeration lemmas -/

theorem enumFrom_map_snd (l : List Str) : ∀ i : Nat, (enumFrom i l).map Prod.snd = l := by
  induction l with
  | nil => intro i; rfl
  | cons a t ih => intro i; simp [enumFrom, ih]

theorem enumFrom_fst (l : List Str) : ∀ i : Nat, (enumFrom i l).map Prod.fst = List.range' i l.length := by
  induction l with
  | nil => intro i; rfl
  | cons a t ih =>
    intro i
    simp [enumFrom, ih, List.range']

theorem enumFrom_length (l : List Str) : ∀ i : Nat, (enumFrom i l).length = l.length := by
  induction l with
  | nil => intro i; rfl
  | cons a t ih => intro i; simp [enumFrom, ih]

theorem enumFrom_mem_fst (l : List Str) :
    ∀ (i : Nat) (p : Nat × Str), p ∈ enumFrom i l → i ≤ p.1 := by
  induction l with
  | nil =>
    intro i p hp
    simp [enumFrom] at hp
  | cons a t ih =>
    intro i p hp
    rw [enumFrom] at hp
    rcases List.mem_cons.mp hp with h | h
    · subst h
      exact Nat.le_refl i
    · exact Nat.le_trans (Nat.le_succ i) (ih (i + 1) p h)

theorem enumFrom_mem_snd (l : List Str) :
    ∀ (i : Nat) (p : Nat × Str), p ∈ enumFrom i l → p.2 ∈ l := by
  induction l with
  | nil =>
    intro i p hp
    simp [enumFrom] at hp
  | cons a t ih =>
    intro i p hp
    rw [enumFrom] at hp
    rcases List.mem_cons.mp hp with h | h
    · subst h
      exact List.mem_cons_self _ _
    · exact List.mem_cons_of_mem _ (ih (i + 1) p h)

theorem enumFrom_sorted (l : List Str) : ∀ i : Nat, List.Sorted keyLE (enumFrom i l) := by
  induction l with
  | nil => intro i; exact List.sorted_nil
  | cons a t ih =>
    intro i
    rw [enumFrom]
    refine List.sorted_cons.mpr ⟨?_, ih (i + 1)⟩
    intro p hp
    exact Nat.le_trans (Nat.le_succ i) (enumFrom_mem_fst t (i + 1) p hp)

theorem enumFrom_fst_nodup (l : List Str) (i : Nat) : ((enumFrom i l).map Prod.fst).Nodup := by
  rw [enumFrom_fst]
  exact List.nodup_range' i l.length

theorem assemble_enumFrom (l : List Str) : assemble (enumFrom 0 l) = l.flatten := by
  rw [assemble, List.Sorted.insertionSort_eq (enumFrom_sorted l 0), enumFrom_map_snd]

/-! ### Pagination lemmas -/

theorem collectGo_drop (pages : List (List Param)) :
    ∀ (f i : Nat), pages.length ≤ i + f + 1 → i < pages.length →
      collectGo pages f i = pages.drop i := by
  intro f
  induction f with
  | zero =>
    intro i hf hi
    rw [collectGo, List.drop_eq_getElem_cons hi,
      List.drop_eq_nil_of_le (by omega : pages.length ≤ i + 1),
      List.getD_eq_getElem pages [] hi]
  | succ f ih =>
    intro i hf hi
    rw [collectGo]
    by_cases hnext : i + 1 < pages.length
    · rw [nextTok, if_pos hnext]
      show pages.getD i [] :: collectGo pages f (i + 1) = List.drop i pages
      rw [ih (i + 1) (by omega) hnext, List.drop_eq_getElem_cons hi,
        List.getD_eq_getElem pages [] hi]
    · rw [nextTok, if_neg hnext]
      show pages.getD i [] :: [] = List.drop i pages
      rw [List.drop_eq_getElem_cons hi,
        List.drop_eq_nil_of_le (by omega : pages.length ≤ i + 1),
        List.getD_eq_getElem pages [] hi]

theorem allPages_eq (pages : List (List Param)) (hne : pages ≠ []) : allPages pages = pages := by
  have hpos : 0 < pages.length := List.length_pos.mpr hne
  rw [allPages, collectGo_drop pages pages.length 0 (by omega) hpos, List.drop_zero]

theorem allPages_flatten (pages : List (List Param)) :
    (allPages pages).flatten = pages.flatten := by
  by_cases hne : pages = []
  · subst hne
    rfl
  · rw [allPages_eq pages hne]

/-! ### Encode and decode composition lemmas -/

theorem encode_large (c b : Str) (s : Nat) (h : s < c.length) :
    encode c b s = (enumFrom 0 (chunksOf s c)).map
      (fun ic => (b ++ dotPart ++ natDigits ic.1, utf8Lossy ic.2)) := by
  rw [encode, putsFor, if_pos h, List.map_map]
  rfl

theorem encode_small (c b : Str) (s : Nat) (h : ¬ s < c.length) :
    encode c b s = [(b, utf8Lossy c)] := by
  rw [encode, putsFor, if_neg h]
  rfl

theorem utf8Lossy_self_of_small (c : Str) (s : Nat) (hle : c.length ≤ s)
    (hv : ∀ ch ∈ chunksOf s c, utf8Lossy ch = ch) : utf8Lossy c = c := by
  by_cases hc : c = []
  · subst hc
    rfl
  · refine hv c ?_
    rw [chunksOf_small s c hc hle]
    exact List.mem_cons_self _ _

theorem groupGo_uniform (K : Str) (mk : Nat × Str → Str × Str) :
    ∀ (ivs : List (Nat × Str)), (∀ iv ∈ ivs, deriveKV (mk iv) = some (K, iv)) →
      ∀ acc : List (Nat × Str), groupGo [(K, acc)] (ivs.map mk) = .ok [(K, acc ++ ivs)] := by
  intro ivs
  induction ivs with
  | nil =>
    intro _ acc
    simp [groupGo]
  | cons iv rest ih =>
    intro hmk acc
    rw [List.map_cons, groupGo, hmk iv (List.mem_cons_self _ _)]
    show groupGo (insertEntry [(K, acc)] K iv) (rest.map mk) = .ok [(K, acc ++ iv :: rest)]
    have hins : insertEntry [(K, acc)] K iv = [(K, acc ++ [iv])] := by
      simp [insertEntry]
    rw [hins, ih (fun x hx => hmk x (List.mem_cons_of_mem _ hx)) (acc ++ [iv])]
    simp

theorem groupParams_uniform (K : Str) (mk : Nat × Str → Str × Str)
    (ivs : List (Nat × Str)) (hmk : ∀ iv ∈ ivs, deriveKV (mk iv) = some (K, iv))
    (hne : ivs ≠ []) :
    groupParams (ivs.map mk) = .ok [(K, ivs)] := by
  cases ivs with
  | nil => exact absurd rfl hne
  | cons iv rest =>
    rw [groupParams, List.map_cons, groupGo, hmk iv (List.mem_cons_self _ _)]
    show groupGo (insertEntry [] K iv) (rest.map mk) = _
    rw [show insertEntry [] K iv = [(K, [iv])] from rfl,
      groupGo_uniform K mk rest (fun x hx => hmk x (List.mem_cons_of_mem _ hx)) [iv]]
    rfl

theorem assemble_single (iv : Nat × Str) : assemble [iv] = iv.2 := by
  simp [assemble, List.insertionSort, List.orderedInsert]

theorem decodeModel_single_plain (k v : Str) (hsp : rsplitGo dotPart k = none) :
    decodeModel [(k, v)] = .ok [(k, v)] := by
  have hder : deriveKV (k, v) = some (k, (0, v)) := by
    simp only [deriveKV, hsp]
  rw [decodeModel, groupParams, groupGo, hder]
  show (Except.ok (insertEntry [] k (0, v)) : Except Unit _).map
    (fun m => m.map (fun g => (g.1, assemble g.2))) = .ok [(k, v)]
  rw [show insertEntry [] k (0, v) = [(k, [(0, v)])] from rfl]
  simp [Except.map, assemble_single]

/-! ### Claim theorems -/

/-- C1 (amended): for every byte sequence `c` and chunk size `s ≥ 1` such
that every chunk-size slice of `c` is left unchanged by lossy UTF-8 decoding
(in particular whenever each slice is valid UTF-8), the entries emitted by
Encode under base key `"k"` concatenate, in emission order, exactly to `c`,
and Decode maps base key `"k"` back to exactly `c`.  (For slices that are
not valid UTF-8 the stored values are their lossy decodings and the round
trip is not byte-exact; see the counterexample.) -/
theorem C1_roundtrip (c : Str) (s : Nat) (hs : 1 ≤ s)
    (hv : ∀ ch ∈ chunksOf s c, utf8Lossy ch = ch) :
    ((encode c (strBytes ("k")) s).map Prod.snd).flatten = c ∧
    decodeModel (encode c (strBytes ("k")) s) = .ok [(strBytes ("k"), c)] := by
  by_cases h : s < c.length
  · have henc := encode_large c (strBytes ("k")) s h
    have hentries : encode c (strBytes ("k")) s =
        (enumFrom 0 (chunksOf s c)).map
          (fun ic => (strBytes ("k") ++ dotPart ++ natDigits ic.1, ic.2)) := by
      rw [henc]
      apply List.map_congr_left
      intro ic hic
      rw [hv ic.2 (enumFrom_mem_snd _ 0 ic hic)]
    have hvals : (encode c (strBytes ("k")) s).map Prod.snd = chunksOf s c := by
      rw [hentries, List.map_map]
      have h1 : ∀ ic ∈ enumFrom 0 (chunksOf s c),
          (Prod.snd ∘ fun ic : Nat × Str =>
            (strBytes ("k") ++ dotPart ++ natDigits ic.1, ic.2)) ic = Prod.snd ic := by
        intro ic _
        rfl
      rw [List.map_congr_left h1, enumFrom_map_snd]
    have hcne : chunksOf s c ≠ [] := by
      apply chunksOf_ne_nil
      intro hc
      rw [hc] at h
      simp at h
    have hene : enumFrom 0 (chunksOf s c) ≠ [] := by
      cases hch : chunksOf s c with
      | nil => exact absurd hch hcne
      | cons x xs =>
        simp [enumFrom]
    have hgp : groupParams (encode c (strBytes ("k")) s) =
        .ok [(strBytes ("k"), enumFrom 0 (chunksOf s c))] := by
      rw [hentries]
      apply groupParams_uniform _ _ _ ?_ hene
      intro iv _
      exact deriveKV_chunk (strBytes ("k")) iv.2 iv.1
    constructor
    · rw [hvals, chunksOf_flatten s hs]
    · rw [decodeModel, hgp]
      simp only [Except.map, List.map_cons, List.map_nil]
      rw [assemble_enumFrom, chunksOf_flatten s hs]
  · have hle : c.length ≤ s := Nat.le_of_not_lt h
    have hid : utf8Lossy c = c := utf8Lossy_self_of_small c s hle hv
    have henc := encode_small c (strBytes ("k")) s h
    constructor
    · rw [henc, hid]
      simp
    · rw [henc, hid]
      exact decodeModel_single_plain (strBytes ("k")) c (by decide)

/-- C1 counterexample: the claim as stated fails for byte sequences that are
not valid UTF-8: encoding the single byte `0xFF` under key `"k"` with chunk
size 1 stores the replacement-character bytes, and decoding returns those
bytes, not the original content. -/
theorem C1_counterexample :
    decodeModel (encode [255] (strBytes ("k")) 1) =
      .ok [(strBytes ("k"), [239, 191, 189])] ∧
    decodeModel (encode [255] (strBytes ("k")) 1) ≠ .ok [(strBytes ("k"), [255])] := by
  decide

/-- C1 witness: the amended round trip at `c = "hi"`, `s = 1`. -/
theorem C1_witness :
    ((encode (strBytes ("hi")) (strBytes ("k")) 1).map Prod.snd).flatten = strBytes ("hi") ∧
    decodeModel (encode (strBytes ("hi")) (strBytes ("k")) 1) =
      .ok [(strBytes ("k"), strBytes ("hi"))] :=
  C1_roundtrip (strBytes ("hi")) 1 (by decide) (by decide)

/-- C2 (amended): Decode falls back to whole-key treatment only for keys
containing no `".part"` substring at all.  When a key contains `".part"` and
the text after its last occurrence does not parse as a non-negative integer,
Decode does not fall back: it fails, propagating the parse error (the `?` on
`part.parse()` in `src/main.rs` line 136). -/
theorem C2_malformed_suffix :
    (∀ (l : List (Str × Str)) (e : Str × Str), e ∈ l → deriveKV e = none →
      decodeModel l = .error ()) ∧
    (∀ k v : Str, rsplitGo dotPart k = none → decodeModel [(k, v)] = .ok [(k, v)]) := by
  constructor
  · intro l e he hde
    rw [decodeModel, groupParams, groupGo_error_of_mem l [] e he hde]
    rfl
  · intro k v hsp
    exact decodeModel_single_plain k v hsp

/-- C2 counterexample: the claim as stated is false — on the entry
`("x.partY", "v")` Decode fails with an error instead of returning the
entry unchanged under its own key. -/
theorem C2_counterexample :
    decodeModel [(strBytes ("x.partY"), strBytes ("v"))] = .error () ∧
    decodeModel [(strBytes ("x.partY"), strBytes ("v"))] ≠
      .ok [(strBytes ("x.partY"), strBytes ("v"))] := by
  decide

/-- C2 witness: a malformed suffix (`"a.partz"`) makes Decode fail, and a
key with no `".part"` at all (`"plain"`) falls back to index 0. -/
theorem C2_witness :
    decodeModel [(strBytes ("a.partz"), strBytes ("w"))] = .error () ∧
    decodeModel [(strBytes ("plain"), strBytes ("u"))] =
      .ok [(strBytes ("plain"), strBytes ("u"))] :=
  ⟨C2_malformed_suffix.1 [(strBytes ("a.partz"), strBytes ("w"))]
      (strBytes ("a.partz"), strBytes ("w")) (by decide) (by decide),
    C2_malformed_suffix.2 (strBytes ("plain")) (strBytes ("u")) (by decide)⟩

/-- C5 (amended): when every chunk-size slice of the content is left
unchanged by lossy UTF-8 decoding, every value emitted by Encode has byte
length at most `s`.  (Without that condition the stored value is the lossy
decoding of the slice and its byte length can exceed `s`; see the
counterexample.  The number of characters never exceeds `s`.) -/
theorem C5_chunk_bound (c b : Str) (s : Nat) (hs : 1 ≤ s)
    (hv : ∀ ch ∈ chunksOf s c, utf8Lossy ch = ch) :
    ∀ v ∈ (encode c b s).map Prod.snd, v.length ≤ s := by
  intro v hvmem
  by_cases h : s < c.length
  · rw [encode_large c b s h, List.map_map] at hvmem
    obtain ⟨ic, hic, hrfl⟩ := List.mem_map.mp hvmem
    have hch := enumFrom_mem_snd _ 0 ic hic
    rw [← hrfl]
    show (utf8Lossy ic.2).length ≤ s
    rw [hv ic.2 hch]
    exact chunksOf_mem_length s c ic.2 hch
  · rw [encode_small c b s h] at hvmem
    simp at hvmem
    rw [hvmem, utf8Lossy_self_of_small c s (Nat.le_of_not_lt h) hv]
    exact Nat.le_of_not_lt h

/-- C5 counterexample: the claim as stated is false in bytes — encoding the
two bytes `FF FF` with chunk size 1 stores two values of 3 bytes each (the
UTF-8 encoding of U+FFFD), exceeding the chunk size. -/
theorem C5_counterexample :
    ¬ (∀ v ∈ (encode [255, 255] (strBytes ("b")) 1).map Prod.snd, v.length ≤ 1) := by
  decide

/-- C5 witness: the amended bound at `c = "abc"`, `s = 2`, value `"ab"`. -/
theorem C5_witness : (strBytes ("ab")).length ≤ 2 :=
  C5_chunk_bound (strBytes ("abc")) (strBytes ("k")) 2 (by decide) (by decide)
    (strBytes ("ab")) (by decide)

/-- C6 (amended): each emitted value is the lossy UTF-8 decoding of its
slice, so when every chunk-size slice is left unchanged by lossy decoding:
if `len(content) ≤ chunk_size`, Encode emits exactly one entry
`(base_key, content)` with no `.partN` suffix; otherwise it splits the
content into consecutive slices of at most `chunk_size` bytes (the final
slice possibly shorter) and emits exactly `ceil(len/chunk_size)` entries
keyed `base_key ++ ".part" ++ i` for `i = 0, 1, ...` in slice order. -/
theorem C6_encode_structure (c b : Str) (s : Nat) (hs : 1 ≤ s)
    (hv : ∀ ch ∈ chunksOf s c, utf8Lossy ch = ch) :
    (c.length ≤ s → encode c b s = [(b, c)]) ∧
    (s < c.length →
      (encode c b s).map Prod.snd = chunksOf s c ∧
      (encode c b s).map Prod.fst =
        (List.range (chunksOf s c).length).map (fun i => b ++ dotPart ++ natDigits i) ∧
      (encode c b s).length = (c.length + s - 1) / s ∧
      (chunksOf s c).flatten = c ∧
      (∀ ch ∈ chunksOf s c, ch.length ≤ s)) := by
  constructor
  · intro hle
    rw [encode_small c b s (by omega), utf8Lossy_self_of_small c s hle hv]
  · intro h
    have hentries : encode c b s =
        (enumFrom 0 (chunksOf s c)).map (fun ic => (b ++ dotPart ++ natDigits ic.1, ic.2)) := by
      rw [encode_large c b s h]
      apply List.map_congr_left
      intro ic hic
      rw [hv ic.2 (enumFrom_mem_snd _ 0 ic hic)]
    refine ⟨?_, ?_, ?_, chunksOf_flatten s hs c, chunksOf_mem_length s c⟩
    · rw [hentries, List.map_map]
      have h1 : ∀ ic ∈ enumFrom 0 (chunksOf s c),
          (Prod.snd ∘ fun ic : Nat × Str => (b ++ dotPart ++ natDigits ic.1, ic.2)) ic
            = Prod.snd ic := by
        intro ic _
        rfl
      rw [List.map_congr_left h1, enumFrom_map_snd]
    · rw [hentries, List.map_map,
        show (Prod.fst ∘ fun ic : Nat × Str => (b ++ dotPart ++ natDigits ic.1, ic.2)) =
          ((fun i => b ++ dotPart ++ natDigits i) ∘ Prod.fst) from rfl,
        ← List.map_map, enumFrom_fst, ← List.range_eq_range']
    · rw [hentries, List.length_map, enumFrom_length, chunksOf_count s hs]

/-- C6 counterexample: the claim as stated is false — for content that is
not valid UTF-8 the single emitted entry is not `(base_key, content)`:
encoding the byte `0x80` stores the replacement-character bytes. -/
theorem C6_counterexample :
    encode [128] (strBytes ("k")) 1 ≠ [(strBytes ("k"), [128])] ∧
    encode [128] (strBytes ("k")) 1 = [(strBytes ("k"), [239, 191, 189])] := by
  decide

/-- C6 witness: the amended structure at `c = "abcd"`, `s = 2` (two chunks)
and at `c = "xy"`, `s = 5` (single entry). -/
theorem C6_witness :
    (encode (strBytes ("abcd")) (strBytes ("k")) 2).map Prod.snd =
        chunksOf 2 (strBytes ("abcd")) ∧
    (encode (strBytes ("abcd")) (strBytes ("k")) 2).length =
        ((strBytes ("abcd")).length + 2 - 1) / 2 ∧
    (chunksOf 2 (strBytes ("abcd"))).flatten = strBytes ("abcd") ∧
    encode (strBytes ("xy")) (strBytes ("k")) 5 = [(strBytes ("k"), strBytes ("xy"))] := by
  have h2 := (C6_encode_structure (strBytes ("abcd")) (strBytes ("k")) 2 (by decide)
    (by decide)).2 (by decide)
  exact ⟨h2.1, h2.2.2.1, h2.2.2.2.1,
    (C6_encode_structure (strBytes ("xy")) (strBytes ("k")) 5 (by decide) (by decide)).1
      (by decide)⟩

theorem zip_map_mem (params : List Param) (fp : Param → Put) :
    ∀ pq ∈ params.zip (params.map fp), pq.2 = fp pq.1 := by
  induction params with
  | nil =>
    intro pq hpq
    simp at hpq
  | cons p ps ih =>
    intro pq hpq
    rw [List.map_cons, List.zip_cons_cons] at hpq
    rcases List.mem_cons.mp hpq with h | h
    · rw [h]
    · exact ih pq h

/-- C3 (amended): for every listed entry, Copy writes exactly one new entry
whose value and storage classification equal the source entry's and whose
key is `to_prefix` concatenated with the old key after removing ALL leading
occurrences of `from_prefix` (`trim_start_matches` strips the prefix
repeatedly, not once; the two differ when the stripped key again starts
with `from_prefix` — see the counterexample). -/
theorem C3_copy_entries (params : List Param) (src dst : Str) :
    (copyPuts params src dst).length = params.length ∧
    ∀ pq ∈ params.zip (copyPuts params src dst),
      pq.2.name = dst ++ trimStartMatches src pq.1.name ∧
      pq.2.value = pq.1.value ∧
      pq.2.type = pq.1.type ∧
      pq.2.overwrite = true := by
  constructor
  · rw [copyPuts, List.length_map]
  · intro pq hpq
    rw [zip_map_mem params _ pq hpq]
    exact ⟨rfl, rfl, rfl, rfl⟩

/-- C3 counterexample: the claim as stated (strip `from_prefix` ONCE) is
false — copying `/a/a/x` from prefix `/a` to `/q` writes key `/q/x`, not
`/q/a/x`, because `trim_start_matches` removes the prefix repeatedly. -/
theorem C3_counterexample :
    (copyPuts [⟨strBytes ("/a/a/x"), strBytes ("w"), ParameterType.secureString⟩]
        (strBytes ("/a")) (strBytes ("/q"))).map Put.name = [strBytes ("/q/x")] ∧
    strBytes ("/q/x") ≠
      strBytes ("/q") ++ specStripOnce (strBytes ("/a")) (strBytes ("/a/a/x")) := by
  decide

/-- C3 witness: the amended copy behavior on the single entry `/p/x`. -/
theorem C3_witness :
    (copyPuts [⟨strBytes ("/p/x"), strBytes ("v"), ParameterType.string⟩]
        (strBytes ("/p")) (strBytes ("/q"))).length = 1 ∧
    ((⟨strBytes ("/q/x"), strBytes ("v"), true, ParameterType.string⟩ : Put).name =
        strBytes ("/q") ++ trimStartMatches (strBytes ("/p")) (strBytes ("/p/x")) ∧
      (⟨strBytes ("/q/x"), strBytes ("v"), true, ParameterType.string⟩ : Put).value =
        strBytes ("v") ∧
      (⟨strBytes ("/q/x"), strBytes ("v"), true, ParameterType.string⟩ : Put).type =
        ParameterType.string ∧
      (⟨strBytes ("/q/x"), strBytes ("v"), true, ParameterType.string⟩ : Put).overwrite =
        true) :=
  ⟨(C3_copy_entries [⟨strBytes ("/p/x"), strBytes ("v"), ParameterType.string⟩]
      (strBytes ("/p")) (strBytes ("/q"))).1,
    (C3_copy_entries [⟨strBytes ("/p/x"), strBytes ("v"), ParameterType.string⟩]
      (strBytes ("/p")) (strBytes ("/q"))).2
      (⟨strBytes ("/p/x"), strBytes ("v"), ParameterType.string⟩,
        ⟨strBytes ("/q/x"), strBytes ("v"), true, ParameterType.string⟩) (by decide)⟩

/-- C4 (amended): the per-group fetch of RewriteSecrets is a RECURSIVE
paginated listing (`ssm::all_parameters_by_path` requests
`recursive(true)`): it returns exactly the stored entries anywhere under
the group's parent path, including entries in deeper subpaths, and the
pagination loop concatenates all pages of that listing. -/
theorem C4_group_fetch (store : List Param) (n : Str) :
    (∀ q : Param, q ∈ composeFetch store (parentPath n) ↔
      q ∈ store ∧ isUnder (parentPath n) q.name = true) ∧
    (∀ pages : List (List Param), pages.flatten = composeFetch store (parentPath n) →
      (allPages pages).flatten = composeFetch store (parentPath n)) := by
  constructor
  · intro q
    rw [composeFetch, listByPath]
    simp [List.mem_filter]
  · intro pages hp
    rw [allPages_flatten, hp]

/-- C4 counterexample: the claim as stated (non-recursive, directly-under
listing) is false — the fetch for parent path `/apps/n/svc/secrets` returns
the entry `/apps/n/svc/secrets/a/b`, which is in a deeper subpath and not
directly under the parent path. -/
theorem C4_counterexample :
    composeFetch [⟨strBytes ("/apps/n/svc/secrets/a/b"), strBytes ("v"),
        ParameterType.secureString⟩]
      (parentPath (strBytes ("/apps/n/svc/secrets/a"))) =
      [⟨strBytes ("/apps/n/svc/secrets/a/b"), strBytes ("v"),
        ParameterType.secureString⟩] ∧
    isDirectlyUnder (parentPath (strBytes ("/apps/n/svc/secrets/a")))
      (strBytes ("/apps/n/svc/secrets/a/b")) = false := by
  decide

/-- C4 witness: the amended recursive-fetch characterization at a concrete
store, secret name, and a one-page listing. -/
theorem C4_witness :
    ((⟨strBytes ("/a/b/c"), strBytes ("v"), ParameterType.secureString⟩ : Param) ∈
        composeFetch [⟨strBytes ("/a/b/c"), strBytes ("v"), ParameterType.secureString⟩]
          (parentPath (strBytes ("/a/b/x"))) ↔
      (⟨strBytes ("/a/b/c"), strBytes ("v"), ParameterType.secureString⟩ : Param) ∈
          [⟨strBytes ("/a/b/c"), strBytes ("v"), ParameterType.secureString⟩] ∧
        isUnder (parentPath (strBytes ("/a/b/x"))) (strBytes ("/a/b/c")) = true) ∧
    (allPages [[⟨strBytes ("/a/b/c"), strBytes ("v"), ParameterType.secureString⟩]]).flatten =
      composeFetch [⟨strBytes ("/a/b/c"), strBytes ("v"), ParameterType.secureString⟩]
        (parentPath (strBytes ("/a/b/x"))) :=
  ⟨(C4_group_fetch [⟨strBytes ("/a/b/c"), strBytes ("v"), ParameterType.secureString⟩]
      (strBytes ("/a/b/x"))).1 _,
    (C4_group_fetch [⟨strBytes ("/a/b/c"), strBytes ("v"), ParameterType.secureString⟩]
      (strBytes ("/a/b/x"))).2 _ (by decide)⟩

/-- C7: the pagination loop follows continuation tokens until a page
returns none, yielding the concatenation of all pages' entries (each entry
exactly once, in page order), with exactly one request per page. -/
theorem C7_pagination (pages : List (List Param)) :
    (allPages pages).flatten = pages.flatten ∧
    (pages ≠ [] → (allPages pages).length = pages.length) := by
  refine ⟨allPages_flatten pages, fun hne => ?_⟩
  rw [allPages_eq pages hne]

/-- C7 witness: a 3-page listing linked by tokens yields the concatenation
of the three pages in 3 requests. -/
theorem C7_witness :
    (allPages [[⟨strBytes ("/a"), strBytes ("1"), ParameterType.string⟩],
      [⟨strBytes ("/b"), strBytes ("2"), ParameterType.string⟩],
      [⟨strBytes ("/c"), strBytes ("3"), ParameterType.string⟩]]).flatten =
      [⟨strBytes ("/a"), strBytes ("1"), ParameterType.string⟩,
        ⟨strBytes ("/b"), strBytes ("2"), ParameterType.string⟩,
        ⟨strBytes ("/c"), strBytes ("3"), ParameterType.string⟩] ∧
    (allPages [[⟨strBytes ("/a"), strBytes ("1"), ParameterType.string⟩],
      [⟨strBytes ("/b"), strBytes ("2"), ParameterType.string⟩],
      [⟨strBytes ("/c"), strBytes ("3"), ParameterType.string⟩]]).length = 3 :=
  ⟨(C7_pagination _).1,
    (C7_pagination [[⟨strBytes ("/a"), strBytes ("1"), ParameterType.string⟩],
      [⟨strBytes ("/b"), strBytes ("2"), ParameterType.string⟩],
      [⟨strBytes ("/c"), strBytes ("3"), ParameterType.string⟩]]).2 (by decide)⟩

/-- C8: when the derived chunk indices are pairwise distinct within each
base key, the result of Decode at every base key is invariant under any
permutation of the fetched entries — each group is re-sorted by chunk index
before concatenation, so a shuffled fetch order reconstructs the same
content. -/
theorem C8_decode_order_invariant (l₁ l₂ : List (Str × Str)) (hp : l₁.Perm l₂)
    (hd : ∀ k : Str, ((chunksFor l₁ k).map Prod.fst).Nodup) (k : Str) :
    decodeLookup l₁ k = decodeLookup l₂ k := by
  cases hgp : groupParams l₁ with
  | error u =>
    cases u
    obtain ⟨e, he, hde⟩ := groupGo_error_mem l₁ [] hgp
    have h2 : groupParams l₂ = .error () := groupGo_error_of_mem l₂ [] e (hp.subset he) hde
    rw [decodeLookup, decodeLookup, decodeModel, decodeModel, hgp, h2]
  | ok m₁ =>
    cases hgp2 : groupParams l₂ with
    | error u =>
      cases u
      obtain ⟨e, he, hde⟩ := groupGo_error_mem l₂ [] hgp2
      have h1 : groupParams l₁ = .error () :=
        groupGo_error_of_mem l₁ [] e (hp.symm.subset he) hde
      rw [hgp] at h1
      exact absurd h1 (by simp)
    | ok m₂ =>
      rw [decodeLookup_of_ok l₁ m₁ hgp k, decodeLookup_of_ok l₂ m₂ hgp2 k]
      have hperm : (chunksFor l₁ k).Perm (chunksFor l₂ k) := hp.filterMap _
      by_cases hc : chunksFor l₁ k = []
      · have hc2 : chunksFor l₂ k = [] := by
          rw [hc] at hperm
          exact (hperm.symm).eq_nil
        rw [if_pos hc, if_pos hc2]
      · have hc2 : ¬ chunksFor l₂ k = [] := by
          intro h0
          rw [h0] at hperm
          exact hc hperm.eq_nil
        rw [if_neg hc, if_neg hc2, assemble_eq_of_perm_nodup _ _ hperm (hd k)]

/-- C8 witness: two chunk entries of base key `"k"` fetched in reversed
order decode to the same content. -/
theorem C8_witness :
    decodeLookup [(strBytes ("k.part1"), strBytes ("b")),
        (strBytes ("k.part0"), strBytes ("a"))] (strBytes ("k")) =
      decodeLookup [(strBytes ("k.part0"), strBytes ("a")),
        (strBytes ("k.part1"), strBytes ("b"))] (strBytes ("k")) := by
  have hd : ∀ k : Str,
      ((chunksFor [(strBytes ("k.part1"), strBytes ("b")),
        (strBytes ("k.part0"), strBytes ("a"))] k).map Prod.fst).Nodup := by
    intro k
    have h1 : deriveKV (strBytes ("k.part1"), strBytes ("b")) =
        some (strBytes ("k"), (1, strBytes ("b"))) := by decide
    have h2 : deriveKV (strBytes ("k.part0"), strBytes ("a")) =
        some (strBytes ("k"), (0, strBytes ("a"))) := by decide
    by_cases hk : strBytes ("k") = k
    · subst hk
      decide
    · have hnil : chunksFor [(strBytes ("k.part1"), strBytes ("b")),
          (strBytes ("k.part0"), strBytes ("a"))] k = [] := by
        simp [chunksFor, List.filterMap_cons, h1, h2, hk]
      rw [hnil]
      simp
  exact C8_decode_order_invariant _ _
    (List.Perm.swap (strBytes ("k.part0"), strBytes ("a"))
      (strBytes ("k.part1"), strBytes ("b")) [])
    hd (strBytes ("k"))

/-- C9: every parameter written by Upload — whole value or chunk — is
stored as `SecureString` with overwrite enabled, regardless of content; and
copying entries that are all secret-classified yields only
secret-classified entries. -/
theorem C9_upload_secure (b c : Str) :
    (∀ p ∈ uploadPuts b c, p.type = ParameterType.secureString ∧ p.overwrite = true) ∧
    (∀ (params : List Param) (src dst : Str),
      (∀ q ∈ params, q.type = ParameterType.secureString) →
      ∀ p ∈ copyPuts params src dst, p.type = ParameterType.secureString) := by
  constructor
  · intro p hp
    rw [uploadPuts, putsFor] at hp
    by_cases h : CHUNK_SIZE < c.length
    · rw [if_pos h] at hp
      obtain ⟨ic, _, hrfl⟩ := List.mem_map.mp hp
      rw [← hrfl]
      exact ⟨rfl, rfl⟩
    · rw [if_neg h] at hp
      simp at hp
      rw [hp]
      exact ⟨rfl, rfl⟩
  · intro params src dst hall p hp
    obtain ⟨q, hq, hrfl⟩ := List.mem_map.mp hp
    rw [← hrfl]
    exact hall q hq

/-- C9 witness: a concrete upload put is secret-classified with overwrite
enabled, and a copy of secret-classified entries stays secret-classified. -/
theorem C9_witness :
    ((⟨strBytes ("k"), strBytes ("v"), true, ParameterType.secureString⟩ : Put).type =
        ParameterType.secureString ∧
      (⟨strBytes ("k"), strBytes ("v"), true, ParameterType.secureString⟩ : Put).overwrite =
        true) ∧
    (⟨strBytes ("/q/x"), strBytes ("v"), true, ParameterType.secureString⟩ : Put).type =
      ParameterType.secureString :=
  ⟨(C9_upload_secure (strBytes ("k")) (strBytes ("v"))).1 _ (by decide),
    (C9_upload_secure (strBytes ("k")) (strBytes ("v"))).2
      [⟨strBytes ("/p/x"), strBytes ("v"), ParameterType.secureString⟩]
      (strBytes ("/p")) (strBytes ("/q")) (by decide) _ (by decide)⟩

theorem length_filterMap_countP {α β : Type} (f : α → Option β) :
    ∀ l : List α, (l.filterMap f).length = l.countP (fun a => (f a).isSome) := by
  intro l
  induction l with
  | nil => rfl
  | cons a t ih =>
    rw [List.filterMap_cons]
    cases hf : f a with
    | none =>
      rw [List.countP_cons]
      simp [hf, ih]
    | some b =>
      rw [List.countP_cons]
      simp [hf, ih]

/-- C10: ExportEnv does not fail when some requested variable names have no
stored entry: the emitted lines are exactly one `KEY="value"` line per
parameter the batch fetch returns, and every missing name is silently
omitted (it contributes no line). -/
theorem C10_env_missing (store : List Param) (base : Str) (vars : List Str) :
    setEnvLines store base vars =
      vars.filterMap (fun v => (storeGet store (envName base v)).map envLine) ∧
    (setEnvLines store base vars).length =
      vars.countP (fun v => (storeGet store (envName base v)).isSome) := by
  have h1 : setEnvLines store base vars =
      vars.filterMap (fun v => (storeGet store (envName base v)).map envLine) := by
    rw [setEnvLines, getParametersResp, List.filterMap_map, List.map_filterMap]
    rfl
  refine ⟨h1, ?_⟩
  rw [h1, length_filterMap_countP]
  congr 1
  funext v
  cases storeGet store (envName base v) <;> rfl
